import Mathlib

/-! Frame edge filter (`native-lib.cpp`).

A shallow embedding of the JNI entry point
`Java_com_example_flamassignment_MainActivity_processFrame` and of its helper
`rgbaBytesToMat`, together with the parts of the JNI array interface and of the
OpenCV calls (`Mat`, `Mat::clone`, `cvtColor`, `Canny`) that the entry point
uses.

* Bytes are octets `0 .. 255`.  The casts `(uchar*)data` and
  `(jbyte*)edges.data` of the source reinterpret the same octets and are the
  identity here.
* A `jint` is an `Int`; the one machine multiplication of the source,
  `int outLen = width * height`, is wrapped to 32 bits (`wrapInt32`).
* The Java heap is the list of the byte arrays allocated so far; a `jbyteArray`
  is an index into it.  A Java array has at most `2^31 - 1` elements, which a
  `JArray` carries as a field.
* A native pointer is given as the memory readable from it.  Behind the
  elements of an array lies memory of other objects (`JNIEnv.behind`); a read
  past the elements sees it, or faults where nothing is mapped.
* A call either returns (`Except.ok`, with the reference of the returned array
  and the heap after the call) or ends in a `Failure`.  Memory is assumed to
  suffice: no allocation fails.
-/

namespace EdgeViewer

/-! ## Bytes, machine integers and failures -/

/-- An octet. -/
abbrev Byte := Fin 256

/-- A JNI `jint`. -/
abbrev jint := Int

/-- A `jbyteArray` reference: the index of the array in the heap. -/
abbrev jbyteArray := Nat

/-- Two's complement wrap of an integer to the 32-bit `int` range. -/
def wrapInt32 (x : Int) : Int :=
  (x + 2147483648) % 4294967296 - 2147483648

/-- The ways a call can end without returning an array.  `InvalidArgument` and
`AllocationFailure` are the two error kinds the specification names; the other
four are the ways the calls made by the source can fail. -/
inductive Failure where
  /-- The error kind of the specification for a bad length or dimension. -/
  | InvalidArgument
  /-- The error kind of the specification for memory exhaustion. -/
  | AllocationFailure
  /-- A read of native memory that is not mapped: a segmentation fault. -/
  | OutOfBoundsRead
  /-- A `cv::Exception` raised by a failed `CV_Assert`; nothing catches it. -/
  | CvException
  /-- A JNI call on a reference that is not a live array. -/
  | BadReference
  /-- An exception raised by a JNI array call (negative size, bad region). -/
  | JavaException
  deriving DecidableEq, Repr

/-! ## The JNI byte-array interface -/

/-- A Java `byte[]`: its elements, at most `2^31 - 1` of them. -/
structure JArray where
  /-- The elements. -/
  elems : List Byte
  /-- A Java array length is a non-negative `int`. -/
  len_ok : elems.length < 2147483648
  deriving DecidableEq

/-- The state seen through `JNIEnv`: the byte arrays allocated so far, and the
native memory that lies behind the buffers handed out for them. -/
structure JNIEnv where
  /-- The arrays; a `jbyteArray` is an index into this list. -/
  heap : List JArray
  /-- For each reference, the bytes mapped in native memory right behind the
  elements that `GetByteArrayElements` hands out for it; behind a reference
  beyond this list nothing is mapped.  These bytes belong to other objects:
  they are no part of the array. -/
  behind : List (List Byte)
  deriving DecidableEq

/-- The array a reference denotes, when it is live. -/
def JNIEnv.lookup (env : JNIEnv) (a : jbyteArray) : Option JArray :=
  env.heap.get? a

/-- The native memory readable from the pointer to the elements of an array:
the elements, followed by what is mapped behind them.  C puts no bound on the
pointer. -/
def nativeView (env : JNIEnv) (array : jbyteArray) (arr : JArray) : List Byte :=
  arr.elems ++ env.behind.getD array []

/-- `GetByteArrayElements(array, NULL)`: a pointer to the elements of the
array, given as the native memory readable from it. -/
def GetByteArrayElements (env : JNIEnv) (array : jbyteArray) :
    Except Failure (List Byte) :=
  match env.lookup array with
  | some arr => .ok (nativeView env array arr)
  | none => .error .BadReference

/-- `GetArrayLength(array)`. -/
def GetArrayLength (env : JNIEnv) (array : jbyteArray) : Except Failure Int :=
  match env.lookup array with
  | some arr => .ok (arr.elems.length : Int)
  | none => .error .BadReference

/-- The zero-filled array of `n` elements. -/
def JArray.zeros (n : Nat) (h : n < 2147483648) : JArray :=
  ⟨List.replicate n 0, by simpa using h⟩

/-- `NewByteArray(len)`: a fresh zero-filled array at the end of the heap. -/
def NewByteArray (env : JNIEnv) (len : Int) : Except Failure (jbyteArray × JNIEnv) :=
  if h : 0 ≤ len ∧ len < 2147483648 then
    .ok (env.heap.length,
      ⟨env.heap ++ [JArray.zeros len.toNat (by omega)], env.behind⟩)
  else .error .JavaException

/-- The elements of an array with the region `[start, start + region.length)`
overwritten by `region`. -/
def writeRegion (old : List Byte) (start : Nat) (region : List Byte) : List Byte :=
  old.take start ++ region ++ old.drop (start + region.length)

/-- `SetByteArrayRegion(array, start, len, buf)`: copies `len` bytes from the
native memory `buf` into the array. -/
def SetByteArrayRegion (env : JNIEnv) (array : jbyteArray) (start len : Int)
    (buf : List Byte) : Except Failure JNIEnv :=
  match env.lookup array with
  | none => .error .BadReference
  | some arr =>
    if h : 0 ≤ start ∧ 0 ≤ len ∧ start + len ≤ (arr.elems.length : Int) then
      if hb : len.toNat ≤ buf.length then
        .ok ⟨env.heap.set array
          ⟨writeRegion arr.elems start.toNat (buf.take len.toNat), by
            have hl : (buf.take len.toNat).length = len.toNat := by
              rw [List.length_take, Nat.min_eq_left hb]
            have hk := arr.len_ok
            simp only [writeRegion, List.length_append, List.length_take, List.length_drop, hl]
            omega⟩, env.behind⟩
      else .error .OutOfBoundsRead
    else .error .JavaException

/-- `ReleaseByteArrayElements(array, elems, 0)`: mode `0` copies the elements
at the pointer, as many as the array has, back into the array and frees the
buffer. -/
def ReleaseByteArrayElements (env : JNIEnv) (array : jbyteArray)
    (elems : List Byte) : Except Failure JNIEnv :=
  match env.lookup array with
  | none => .error .BadReference
  | some arr =>
    if h : arr.elems.length ≤ elems.length then
      .ok ⟨env.heap.set array ⟨elems.take arr.elems.length, by
        rw [List.length_take, Nat.min_eq_left h]
        exact arr.len_ok⟩, env.behind⟩
    else .error .BadReference

/-! ## OpenCV matrices -/

/-- A `cv::Mat` header placed over user memory by
`Mat(rows, cols, type, data)`: the dimensions as given, the channel count of
the type, and the native memory readable from `data`.  Constructing it reads
nothing. -/
structure UserMat where
  /-- The `rows` argument. -/
  rows : Int
  /-- The `cols` argument. -/
  cols : Int
  /-- Channels of the element type (`4` for `CV_8UC4`). -/
  channels : Nat
  /-- The native memory the header points into. -/
  data : List Byte
  deriving DecidableEq

/-- An owned, continuous `cv::Mat` of depth `CV_8U`; `data` is row-major
with `channels` bytes per pixel and no padding. -/
structure Mat where
  /-- Number of rows. -/
  rows : Nat
  /-- Number of columns. -/
  cols : Nat
  /-- Channels per pixel. -/
  channels : Nat
  /-- The pixel bytes. -/
  data : List Byte
  deriving DecidableEq

/-- Channel count of `CV_8UC4`. -/
def CV_8UC4 : Nat := 4

/-- A default-constructed (released) matrix. -/
def Mat.released : Mat := ⟨0, 0, 1, []⟩

/-- `Mat::empty()`: no element. -/
def Mat.empty (m : Mat) : Bool := m.rows * m.cols == 0

/-- Modelled from the spec: `Mat::clone` of OpenCV, whose source is not part
of this repository ("the implementation must work on an independent copy").
A header without elements clones to a released matrix; otherwise the copy is
created with the sizes of the header, which `Mat::create` asserts to be
non-negative, and `rows * cols * channels` bytes are read from the memory of
the header.  The read has no regard to where the buffer of the user ends: it
takes what is mapped at the pointer, and it faults where nothing is. -/
def UserMat.clone (m : UserMat) : Except Failure Mat :=
  if m.rows = 0 ∨ m.cols = 0 then .ok Mat.released
  else if m.rows < 0 ∨ m.cols < 0 then .error .CvException
  else
    let n := m.rows.toNat * m.cols.toNat * m.channels
    if n ≤ m.data.length then
      .ok ⟨m.rows.toNat, m.cols.toNat, m.channels, m.data.take n⟩
    else .error .OutOfBoundsRead

/-- The helper `rgbaBytesToMat` of the source: a `CV_8UC4` header of `height`
rows and `width` columns over `data`, cloned. -/
def rgbaBytesToMat (data : List Byte) (width height : jint) : Except Failure Mat :=
  let mat : UserMat := ⟨height, width, CV_8UC4, data⟩
  mat.clone

/-! ## Grayscale conversion -/

/-- The 8-bit luminance of a pixel: `0.299 R + 0.587 G + 0.114 B` in 15-bit
fixed point, rounded. -/
def rgbToGray (r g b : Byte) : Byte :=
  Fin.ofNat ((r.val * 9798 + g.val * 19235 + b.val * 3735 + 16384) / 32768)

/-- The gray value of pixel `i` of a buffer with `scn` bytes per pixel in
R, G, B (, A) order. -/
def grayAt (scn : Nat) (data : List Byte) (i : Nat) : Byte :=
  rgbToGray (data.getD (scn * i) 0) (data.getD (scn * i + 1) 0) (data.getD (scn * i + 2) 0)

/-- Modelled from the spec: `cvtColor(src, dst, COLOR_RGBA2GRAY)` of OpenCV,
whose source is not part of this repository ("convert each pixel to
single-channel intensity using the standard RGBA-to-grayscale luminance
transform").  The call asserts that the source is not empty and has three
or four channels; the result has the size of the source and one channel. -/
def cvtColor (src : Mat) : Except Failure Mat :=
  if src.empty then .error .CvException
  else if src.channels = 3 ∨ src.channels = 4 then
    .ok ⟨src.rows, src.cols, 1,
      (List.range (src.rows * src.cols)).map (grayAt src.channels src.data)⟩
  else .error .CvException

/-! ## Canny edge detection -/

/-- The index nearest to `i` in `0 .. n - 1` (`BORDER_REPLICATE`). -/
def clampIdx (i : Int) (n : Nat) : Nat :=
  if i < 0 then 0 else if (n : Int) ≤ i then n - 1 else i.toNat

/-- The value of a single-channel image at row `r`, column `c`, with
coordinates outside the image replaced by the nearest ones inside. -/
def Mat.pix (m : Mat) (r c : Int) : Int :=
  ((m.data.getD (clampIdx r m.rows * m.cols + clampIdx c m.cols) 0).val : Int)

/-- The 3x3 Sobel derivative in `x`. -/
def sobelDx (m : Mat) (r c : Int) : Int :=
  (m.pix (r - 1) (c + 1) + 2 * m.pix r (c + 1) + m.pix (r + 1) (c + 1))
    - (m.pix (r - 1) (c - 1) + 2 * m.pix r (c - 1) + m.pix (r + 1) (c - 1))

/-- The 3x3 Sobel derivative in `y`. -/
def sobelDy (m : Mat) (r c : Int) : Int :=
  (m.pix (r + 1) (c - 1) + 2 * m.pix (r + 1) c + m.pix (r + 1) (c + 1))
    - (m.pix (r - 1) (c - 1) + 2 * m.pix (r - 1) c + m.pix (r - 1) (c + 1))

/-- Whether `(r, c)` is a pixel of an image of the given size. -/
def inImage (rows cols : Nat) (r c : Int) : Bool :=
  decide (0 ≤ r) && decide (r < (rows : Int)) && decide (0 ≤ c) && decide (c < (cols : Int))

/-- The L1 gradient magnitude `|dx| + |dy|`, and `0` outside the image. -/
def gradMag (m : Mat) (r c : Int) : Nat :=
  if inImage m.rows m.cols r c then (sobelDx m r c).natAbs + (sobelDy m r c).natAbs else 0

/-- The constant `TG22` of OpenCV: `tan 22.5°` in 15-bit fixed point. -/
def TG22 : Nat := 13573

/-- Non-maximum suppression and double thresholding of one pixel: `2` for a
strong edge pixel, `0` for a pixel that may belong to an edge, `1` for a pixel
that does not. -/
def nmsClass (m : Mat) (low high : Nat) (r c : Int) : Nat :=
  let g := gradMag m r c
  if low < g then
    let xs := sobelDx m r c
    let ys := sobelDy m r c
    let x := xs.natAbs
    let y := ys.natAbs * 32768
    let tg22x := x * TG22
    let isMax : Bool :=
      if y < tg22x then
        decide (gradMag m r (c - 1) < g) && decide (gradMag m r (c + 1) ≤ g)
      else
        let tg67x := tg22x + x * 65536
        if tg67x < y then
          decide (gradMag m (r - 1) c < g) && decide (gradMag m (r + 1) c ≤ g)
        else
          let s : Int := if decide (xs < 0) != decide (ys < 0) then -1 else 1
          decide (gradMag m (r - 1) (c - s) < g) && decide (gradMag m (r + 1) (c + s) < g)
    if isMax then (if high < g then 2 else 0) else 1
  else 1

/-- The class map of an image, row-major. -/
def nmsMap (m : Mat) (low high : Nat) : List Nat :=
  (List.range (m.rows * m.cols)).map fun i =>
    nmsClass m low high ((i / m.cols : Nat) : Int) ((i % m.cols : Nat) : Int)

/-- The class of `(r, c)` in a class map; outside the image it is `1`. -/
def mapAt (rows cols : Nat) (map : List Nat) (r c : Int) : Nat :=
  if inImage rows cols r c then map.getD (r.toNat * cols + c.toNat) 1 else 1

/-- Whether one of the eight neighbours of `(r, c)` is a strong edge pixel. -/
def strongNeighbour (rows cols : Nat) (map : List Nat) (r c : Int) : Bool :=
  [(-1, -1), (-1, 0), (-1, 1), (0, -1), (0, 1), (1, -1), (1, 0), (1, 1)].any
    fun d : Int × Int => mapAt rows cols map (r + d.1) (c + d.2) == 2

/-- One round of edge tracking: a pixel that may belong to an edge and
touches a strong edge pixel becomes a strong edge pixel. -/
def hystStep (rows cols : Nat) (map : List Nat) : List Nat :=
  (List.range (rows * cols)).map fun i =>
    let v := map.getD i 1
    if v = 0 ∧ strongNeighbour rows cols map ((i / cols : Nat) : Int) ((i % cols : Nat) : Int)
    then 2 else v

/-- Edge tracking by hysteresis: `fuel` rounds of `hystStep`. -/
def hysteresis (rows cols : Nat) : Nat → List Nat → List Nat
  | 0, map => map
  | fuel + 1, map => hysteresis rows cols fuel (hystStep rows cols map)

/-- The pixels of a class map that may still become edge pixels. -/
def pending (n : Nat) (map : List Nat) : Finset Nat :=
  (Finset.range n).filter fun i => map.getD i 1 = 0

/-- The output byte of a class: `255` for a strong edge pixel, else `0`. -/
def edgeByte (v : Nat) : Byte := if v = 2 then 255 else 0

/-- Modelled from the spec: `Canny(image, edges, threshold1, threshold2)` of
OpenCV with its default aperture `3` and L1 gradient, whose source is not part
of this repository ("a two-threshold edge-detection operator ... producing a
binary edge map where each output byte is either 0 or 255").  The smaller
threshold is the low one.  Sobel derivatives with replicated border, L1
magnitude, non-maximum suppression with double thresholding, edge tracking
from the strong pixels through their 8-neighbourhoods; `rows * cols` rounds
reach every pixel connected to a strong one.  The model covers non-empty
single-channel images, the only ones `processFrame` passes. -/
def Canny (image : Mat) (threshold1 threshold2 : Nat) : Except Failure Mat :=
  if image.empty || image.channels != 1 then .error .CvException
  else
    let low := min threshold1 threshold2
    let high := max threshold1 threshold2
    let n := image.rows * image.cols
    .ok ⟨image.rows, image.cols, 1,
      (hysteresis image.rows image.cols n (nmsMap image low high)).map edgeByte⟩

/-! ## The entry point -/

/-- The JNI function `Java_com_example_flamassignment_MainActivity_processFrame`
of the source.  It returns the reference of the output array together with
the heap after the call. -/
def processFrame (env : JNIEnv) (inputArray : jbyteArray) (width height : jint) :
    Except Failure (jbyteArray × JNIEnv) := do
  let inBytes ← GetByteArrayElements env inputArray
  let _inLen ← GetArrayLength env inputArray
  -- Convert RGBA bytes -> Mat
  let rgba ← rgbaBytesToMat inBytes width height
  -- Convert to gray
  let gray ← cvtColor rgba
  -- Apply Canny edge detector
  let edges ← Canny gray 80 180
  -- Return single-channel bytes (rows*cols)
  let outLen := wrapInt32 (width * height)
  let (outArray, env1) ← NewByteArray env outLen
  let env2 ← SetByteArrayRegion env1 outArray 0 outLen edges.data
  let env3 ← ReleaseByteArrayElements env2 inputArray inBytes
  return (outArray, env3)

/-- The bytes of the array a successful call returns. -/
def outputBytes (r : Except Failure (jbyteArray × JNIEnv)) : Option (List Byte) :=
  match r with
  | .ok (out, env) => (env.lookup out).map JArray.elems
  | .error _ => none

/-! ## The pipeline as pure functions -/

/-- The grayscale grid of an RGBA buffer of `height` rows and `width`
columns. -/
def grayOf (buf : List Byte) (width height : Nat) : Mat :=
  ⟨height, width, 1, (List.range (height * width)).map (grayAt 4 buf)⟩

/-- The edge map of a grayscale grid for the thresholds `80` and `180`,
row-major. -/
def edgeData (g : Mat) : List Byte :=
  (hysteresis g.rows g.cols (g.rows * g.cols) (nmsMap g 80 180)).map edgeByte

/-- The frame as a pure computation: the three OpenCV steps of
`processFrame` on the acquired bytes. -/
def edgesOf (buf : List Byte) (width height : jint) : Except Failure Mat := do
  let rgba ← rgbaBytesToMat buf width height
  let gray ← cvtColor rgba
  Canny gray 80 180

/-- The last four JNI calls of `processFrame`: allocate the output array, fill
it from the edge matrix, release the input elements. -/
def marshalOut (env : JNIEnv) (inputArray : jbyteArray) (inBytes : List Byte)
    (edges : Mat) (outLen : Int) : Except Failure (jbyteArray × JNIEnv) := do
  let (outArray, env1) ← NewByteArray env outLen
  let env2 ← SetByteArrayRegion env1 outArray 0 outLen edges.data
  let env3 ← ReleaseByteArrayElements env2 inputArray inBytes
  return (outArray, env3)

/-- The bytes `processFrame` hands back for given input bytes: the first
`outLen` bytes of the edge matrix, when there are that many. -/
def outputOf (buf : List Byte) (width height : jint) : Option (List Byte) :=
  match edgesOf buf width height with
  | .error _ => none
  | .ok edges =>
    let outLen := wrapInt32 (width * height)
    if 0 ≤ outLen ∧ outLen.toNat ≤ edges.data.length then
      some (edges.data.take outLen.toNat)
    else none

/-- The byte of channel `k` of pixel `(r, c)` of a matrix. -/
def Mat.at (m : Mat) (r c k : Nat) : Byte :=
  m.data.getD ((r * m.cols + c) * m.channels + k) 0

/-! ## Concrete frames -/

/-- The RGBA buffer of `n` pixels that are all `(r, g, b, al)`. -/
def uniformBuffer (n : Nat) (r g b al : Byte) : List Byte :=
  (List.replicate n [r, g, b, al]).flatten

/-- A 2x2 frame: a black and a white column. -/
def stripes2x2 : JArray :=
  ⟨[0, 0, 0, 255, 255, 255, 255, 255, 0, 0, 0, 255, 255, 255, 255, 255], by decide⟩

/-- The frame `stripes2x2` followed by four more bytes: 20 bytes. -/
def stripes2x2Long : JArray :=
  ⟨[0, 0, 0, 255, 255, 255, 255, 255, 0, 0, 0, 255, 255, 255, 255, 255, 9, 9, 9, 9],
    by decide⟩

/-- The all-black 4x4 frame: every pixel `(0, 0, 0, 255)`, 64 bytes. -/
def black4x4 : JArray := ⟨uniformBuffer 16 0 0 0 255, by decide⟩

/-- A single pixel. -/
def pixel1x1 : JArray := ⟨[10, 200, 30, 255], by decide⟩

theorem wrapInt32_of_range (x : Int) (h0 : -2147483648 ≤ x) (h1 : x < 2147483648) :
    wrapInt32 x = x := by
  unfold wrapInt32
  omega

theorem wrapInt32_range (x : Int) :
    -2147483648 ≤ wrapInt32 x ∧ wrapInt32 x < 2147483648 := by
  unfold wrapInt32
  omega

theorem JArray.eq_of_elems {x y : JArray} (h : x.elems = y.elems) : x = y := by
  cases x
  cases y
  simp only at h
  subst h
  rfl

theorem lookup_lt {env : JNIEnv} {a : jbyteArray} {arr : JArray}
    (h : env.lookup a = some arr) : a < env.heap.length := by
  unfold JNIEnv.lookup at h
  rw [List.get?_eq_some] at h
  exact h.1

theorem lookup_append_left {env : JNIEnv} {a : jbyteArray} {arr : JArray}
    (h : env.lookup a = some arr) (x : JArray) :
    JNIEnv.lookup ⟨env.heap ++ [x], env.behind⟩ a = some arr := by
  have hlt := lookup_lt h
  unfold JNIEnv.lookup at h ⊢
  simp only [List.get?_eq_getElem?] at h ⊢
  rw [List.getElem?_append_left hlt]
  exact h

theorem lookup_append_new (env : JNIEnv) (x : JArray) :
    JNIEnv.lookup ⟨env.heap ++ [x], env.behind⟩ env.heap.length = some x := by
  unfold JNIEnv.lookup
  simp

theorem set_append_new (l : List JArray) (x y : JArray) :
    (l ++ [x]).set l.length y = l ++ [y] := by
  induction l with
  | nil => rfl
  | cons z t ih => simp [List.set, ih]

theorem set_append_same {l : List JArray} {a : Nat} {arr : JArray}
    (h : l.get? a = some arr) (x : JArray) (arr2 : JArray) (he : arr2 = arr) :
    (l ++ [x]).set a arr2 = l ++ [x] := by
  subst he
  induction l generalizing a with
  | nil => simp at h
  | cons z t ih =>
    cases a with
    | zero => simp at h; simp [h]
    | succ n => simp at h; simp [List.set]; exact ih (by simpa using h)

theorem processFrame_eq {env : JNIEnv} {a : jbyteArray} {arr : JArray}
    (h : env.lookup a = some arr) (width height : jint) :
    processFrame env a width height =
      (edgesOf (nativeView env a arr) width height).bind fun edges =>
        marshalOut env a (nativeView env a arr) edges (wrapInt32 (width * height)) := by
  unfold processFrame edgesOf marshalOut GetByteArrayElements GetArrayLength
  simp only [h, bind, Except.bind, pure, Except.pure]
  cases rgbaBytesToMat (nativeView env a arr) width height with
  | error e => rfl
  | ok rgba =>
    dsimp only
    cases cvtColor rgba with
    | error e => rfl
    | ok gray => dsimp only

theorem writeRegion_zero_full (old region : List Byte) (h : region.length = old.length) :
    writeRegion old 0 region = region := by
  simp [writeRegion, h]

theorem marshalOut_ok {env : JNIEnv} {a : jbyteArray} {arr : JArray}
    (h : env.lookup a = some arr) (edges : Mat) (outLen : Int)
    (h0 : 0 ≤ outLen) (h1 : outLen < 2147483648) (h2 : outLen.toNat ≤ edges.data.length) :
    ∃ o : JArray, o.elems = edges.data.take outLen.toNat ∧
      marshalOut env a (nativeView env a arr) edges outLen =
        .ok (env.heap.length, ⟨env.heap ++ [o], env.behind⟩) := by
  have hlen : (edges.data.take outLen.toNat).length = outLen.toNat := by
    rw [List.length_take, Nat.min_eq_left h2]
  refine ⟨⟨edges.data.take outLen.toNat, by rw [hlen]; omega⟩, rfl, ?_⟩
  unfold marshalOut NewByteArray
  simp only [bind, Except.bind, pure, Except.pure, h0, h1, and_self, dite_true]
  unfold SetByteArrayRegion
  simp only [lookup_append_new, JArray.zeros, List.length_replicate]
  have hc : (0 : Int) ≤ 0 ∧ 0 ≤ outLen ∧ 0 + outLen ≤ ((outLen.toNat : Nat) : Int) := by
    omega
  simp only [hc, and_self, dite_true, h2]
  unfold ReleaseByteArrayElements
  simp only [set_append_new]
  rw [lookup_append_left h]
  have hv : arr.elems.length ≤ (nativeView env a arr).length := by
    simp [nativeView]
  simp only [hv, dite_true]
  congr 3
  rw [set_append_same]
  · congr 2
    apply JArray.eq_of_elems
    simp only [Int.toNat_zero]
    rw [writeRegion_zero_full]
    rw [hlen, List.length_replicate]
  · exact h
  · apply JArray.eq_of_elems
    simp [nativeView]

theorem marshalOut_negative (env : JNIEnv) (a : jbyteArray) (inBytes : List Byte)
    (edges : Mat) (outLen : Int) (h0 : outLen < 0) :
    marshalOut env a inBytes edges outLen = .error .JavaException := by
  unfold marshalOut NewByteArray
  have hc : ¬ (0 ≤ outLen ∧ outLen < 2147483648) := by omega
  simp only [bind, Except.bind, hc, dite_false]

theorem marshalOut_short (env : JNIEnv) (a : jbyteArray) (inBytes : List Byte)
    (edges : Mat) (outLen : Int) (h0 : 0 ≤ outLen) (h1 : outLen < 2147483648)
    (h2 : ¬ outLen.toNat ≤ edges.data.length) :
    marshalOut env a inBytes edges outLen = .error .OutOfBoundsRead := by
  unfold marshalOut NewByteArray
  simp only [bind, Except.bind, h0, h1, and_self, dite_true]
  unfold SetByteArrayRegion
  simp only [lookup_append_new, JArray.zeros, List.length_replicate]
  have hc : (0 : Int) ≤ 0 ∧ 0 ≤ outLen ∧ 0 + outLen ≤ ((outLen.toNat : Nat) : Int) := by
    omega
  simp only [hc, and_self, dite_true, h2, dite_false]

/-- The bytes of the returned array are a function of the input bytes and the
dimensions alone. -/
theorem outputBytes_processFrame {env : JNIEnv} {a : jbyteArray} {arr : JArray}
    (h : env.lookup a = some arr) (width height : jint) :
    outputBytes (processFrame env a width height) =
      outputOf (nativeView env a arr) width height := by
  rw [processFrame_eq h]
  unfold outputOf
  cases edgesOf (nativeView env a arr) width height with
  | error e => rfl
  | ok edges =>
    simp only [Except.bind]
    have hr := wrapInt32_range (width * height)
    by_cases h0 : 0 ≤ wrapInt32 (width * height)
    · by_cases h2 : (wrapInt32 (width * height)).toNat ≤ edges.data.length
      · obtain ⟨o, ho, hm⟩ := marshalOut_ok h edges _ h0 hr.2 h2
        rw [hm]
        simp only [outputBytes, lookup_append_new, Option.map_some', ho, h0, h2, and_self,
          if_true]
      · rw [marshalOut_short env a _ edges _ h0 hr.2 h2]
        simp only [outputBytes, h2, and_false, if_false]
    · rw [marshalOut_negative env a _ edges _ (by omega)]
      simp only [outputBytes, h0, false_and, if_false]

/-- A call that returns leaves every array of the heap as it was and appends
the returned array. -/
theorem processFrame_heap {env env' : JNIEnv} {a out : jbyteArray} {arr : JArray}
    (h : env.lookup a = some arr) {width height : jint}
    (hr : processFrame env a width height = .ok (out, env')) :
    out = env.heap.length ∧ ∃ o : JArray, env'.heap = env.heap ++ [o] := by
  rw [processFrame_eq h] at hr
  cases he : edgesOf (nativeView env a arr) width height with
  | error e => rw [he] at hr; simp [Except.bind] at hr
  | ok edges =>
    rw [he] at hr
    simp only [Except.bind] at hr
    have hrg := wrapInt32_range (width * height)
    by_cases h0 : 0 ≤ wrapInt32 (width * height)
    · by_cases h2 : (wrapInt32 (width * height)).toNat ≤ edges.data.length
      · obtain ⟨o, _, hm⟩ := marshalOut_ok h edges _ h0 hrg.2 h2
        rw [hm] at hr
        simp only [Except.ok.injEq, Prod.mk.injEq] at hr
        exact ⟨hr.1.symm, o, by rw [← hr.2]⟩
      · rw [marshalOut_short env a _ edges _ h0 hrg.2 h2] at hr
        simp at hr
    · rw [marshalOut_negative env a _ edges _ (by omega)] at hr
      simp at hr

/-! ## The OpenCV steps on a frame with positive dimensions -/

theorem toNat_mul_toNat {w h : Int} (hw : 0 < w) (hh : 0 < h) :
    ((h.toNat * w.toNat : Nat) : Int) = w * h := by
  push_cast
  rw [Int.toNat_of_nonneg hw.le, Int.toNat_of_nonneg hh.le]
  ring

theorem empty_false {rows cols channels : Nat} {data : List Byte}
    (hr : 0 < rows) (hc : 0 < cols) : Mat.empty ⟨rows, cols, channels, data⟩ = false := by
  have : rows * cols ≠ 0 := Nat.mul_ne_zero (by omega) (by omega)
  simp [Mat.empty, this]

theorem rgbaBytesToMat_ok {data : List Byte} {width height : Int}
    (hw : 0 < width) (hh : 0 < height)
    (hlen : height.toNat * width.toNat * 4 ≤ data.length) :
    rgbaBytesToMat data width height =
      .ok ⟨height.toNat, width.toNat, 4, data.take (height.toNat * width.toNat * 4)⟩ := by
  unfold rgbaBytesToMat UserMat.clone
  have h1 : ¬ (height = 0 ∨ width = 0) := by omega
  have h2 : ¬ (height < 0 ∨ width < 0) := by omega
  simp only [h1, h2, if_false, CV_8UC4, hlen, if_true]

theorem rgbaBytesToMat_short {data : List Byte} {width height : Int}
    (hw : 0 < width) (hh : 0 < height)
    (hlen : data.length < height.toNat * width.toNat * 4) :
    rgbaBytesToMat data width height = .error .OutOfBoundsRead := by
  unfold rgbaBytesToMat UserMat.clone
  have h1 : ¬ (height = 0 ∨ width = 0) := by omega
  have h2 : ¬ (height < 0 ∨ width < 0) := by omega
  have h3 : ¬ (height.toNat * width.toNat * 4 ≤ data.length) := by omega
  simp only [h1, h2, if_false, CV_8UC4, h3]

theorem grayAt_take (data : List Byte) (n i : Nat) (hi : i < n) :
    grayAt 4 (data.take (n * 4)) i = grayAt 4 data i := by
  unfold grayAt
  have e : ∀ k, k < n * 4 → (data.take (n * 4)).getD k 0 = data.getD k 0 := by
    intro k hk
    simp only [List.getD_eq_getElem?_getD, List.getElem?_take, hk, if_true]
  rw [e (4 * i) (by omega), e (4 * i + 1) (by omega), e (4 * i + 2) (by omega)]

theorem cvtColor_rgba {rows cols : Nat} (data : List Byte) (hr : 0 < rows) (hc : 0 < cols) :
    cvtColor ⟨rows, cols, 4, data.take (rows * cols * 4)⟩ = .ok (grayOf data cols rows) := by
  unfold cvtColor
  rw [empty_false hr hc]
  simp only [Bool.false_eq_true, if_false, or_true, if_true, grayOf, Except.ok.injEq,
    Mat.mk.injEq, true_and]
  apply List.map_congr_left
  intro i hi
  exact grayAt_take data (rows * cols) i (List.mem_range.mp hi)

theorem Canny_gray {rows cols : Nat} {data : List Byte} (hr : 0 < rows) (hc : 0 < cols) :
    Canny ⟨rows, cols, 1, data⟩ 80 180 =
      .ok ⟨rows, cols, 1, edgeData ⟨rows, cols, 1, data⟩⟩ := by
  unfold Canny
  rw [empty_false hr hc]
  simp [edgeData]

theorem edgesOf_ok {buf : List Byte} {width height : Int}
    (hw : 0 < width) (hh : 0 < height)
    (hlen : height.toNat * width.toNat * 4 ≤ buf.length) :
    edgesOf buf width height =
      .ok ⟨height.toNat, width.toNat, 1, edgeData (grayOf buf width.toNat height.toNat)⟩ := by
  have hW : 0 < width.toNat := by omega
  have hH : 0 < height.toNat := by omega
  unfold edgesOf
  rw [rgbaBytesToMat_ok hw hh hlen]
  simp only [bind, Except.bind]
  rw [cvtColor_rgba _ hH hW]
  simp only [grayOf]
  rw [Canny_gray hH hW]

theorem hystStep_length (rows cols : Nat) (map : List Nat) :
    (hystStep rows cols map).length = rows * cols := by
  simp [hystStep]

theorem nmsMap_length (m : Mat) (low high : Nat) :
    (nmsMap m low high).length = m.rows * m.cols := by
  simp [nmsMap]

theorem hysteresis_length (rows cols fuel : Nat) (map : List Nat)
    (h : map.length = rows * cols) :
    (hysteresis rows cols fuel map).length = rows * cols := by
  induction fuel generalizing map with
  | zero => exact h
  | succ n ih => exact ih _ (hystStep_length rows cols map)

theorem edgeData_length (g : Mat) : (edgeData g).length = g.rows * g.cols := by
  unfold edgeData
  rw [List.length_map, hysteresis_length _ _ _ _ (nmsMap_length g 80 180)]

/-- On positive dimensions and a buffer of at least `width * height * 4`
bytes, the returned bytes are the edge map of the grayscale grid of the
buffer. -/
theorem outputOf_ok {buf : List Byte} {width height : Int} {n : Nat}
    (hw : 0 < width) (hh : 0 < height)
    (hlen : width * height * 4 ≤ (n : Int)) (hn : n ≤ buf.length) (hb : n < 2147483648) :
    outputOf buf width height = some (edgeData (grayOf buf width.toNat height.toNat)) := by
  have hmul := toNat_mul_toNat hw hh
  have hpos : 0 < width * height := Int.mul_pos hw hh
  have hl : height.toNat * width.toNat * 4 ≤ buf.length := by
    have : ((height.toNat * width.toNat * 4 : Nat) : Int) ≤ (n : Int) := by
      push_cast at hmul ⊢
      rw [hmul]
      exact hlen
    have h2 : height.toNat * width.toNat * 4 ≤ n := by exact_mod_cast this
    omega
  unfold outputOf
  rw [edgesOf_ok hw hh hl]
  have hwrap : wrapInt32 (width * height) = width * height :=
    wrapInt32_of_range _ (by omega) (by omega)
  have hn : (width * height).toNat = height.toNat * width.toNat := by
    rw [← hmul]
    exact Int.toNat_ofNat _
  simp only [hwrap, hn]
  have hed : (edgeData (grayOf buf width.toNat height.toNat)).length
      = height.toNat * width.toNat := by
    rw [edgeData_length]
    rfl
  rw [if_pos ⟨hpos.le, by rw [hed]⟩]
  rw [← hed, List.take_length]

/-! ## Adequacy of the library model -/

/-- The fixed-point luminance never leaves the byte range, so the conversion
to a byte in `rgbToGray` does not wrap. -/
theorem rgbToGray_val (r g b : Byte) :
    (rgbToGray r g b).val = (r.val * 9798 + g.val * 19235 + b.val * 3735 + 16384) / 32768 := by
  unfold rgbToGray
  have hr := r.isLt
  have hg := g.isLt
  have hb := b.isLt
  simp only [Fin.ofNat, Fin.val_mk]
  omega

theorem getD_hystStep (rows cols : Nat) (map : List Nat) (i : Nat) (hi : i < rows * cols) :
    (hystStep rows cols map).getD i 1 =
      if map.getD i 1 = 0 ∧
        strongNeighbour rows cols map ((i / cols : Nat) : Int) ((i % cols : Nat) : Int)
      then 2 else map.getD i 1 := by
  unfold hystStep
  rw [List.getD_eq_getElem?_getD, List.getElem?_map, List.getElem?_range hi]
  rfl

theorem eq_of_getD {l1 l2 : List Nat} {n : Nat} (h1 : l1.length = n) (h2 : l2.length = n)
    (h : ∀ i, i < n → l1.getD i 1 = l2.getD i 1) : l1 = l2 := by
  apply List.ext_getElem (by rw [h1, h2])
  intro i hi1 hi2
  have := h i (by omega)
  rwa [List.getD_eq_getElem _ _ hi1, List.getD_eq_getElem _ _ hi2] at this

theorem pending_hystStep_subset (rows cols : Nat) (map : List Nat) :
    pending (rows * cols) (hystStep rows cols map) ⊆ pending (rows * cols) map := by
  intro i hi
  simp only [pending, Finset.mem_filter, Finset.mem_range] at hi ⊢
  refine ⟨hi.1, ?_⟩
  have h := hi.2
  rw [getD_hystStep rows cols map i hi.1] at h
  split at h
  · omega
  · exact h

theorem pending_hystStep_lt (rows cols : Nat) (map : List Nat)
    (hl : map.length = rows * cols) (hne : hystStep rows cols map ≠ map) :
    (pending (rows * cols) (hystStep rows cols map)).card < (pending (rows * cols) map).card := by
  apply Finset.card_lt_card
  refine ⟨pending_hystStep_subset rows cols map, ?_⟩
  intro hsub
  apply hne
  apply eq_of_getD (hystStep_length rows cols map) hl
  intro i hi
  rw [getD_hystStep rows cols map i hi]
  split
  · rename_i hc
    have hm : i ∈ pending (rows * cols) map := by
      simp only [pending, Finset.mem_filter, Finset.mem_range]
      exact ⟨hi, hc.1⟩
    have hs := hsub hm
    simp only [pending, Finset.mem_filter, Finset.mem_range] at hs
    have h2 := hs.2
    rw [getD_hystStep rows cols map i hi, if_pos hc] at h2
    omega
  · rfl

theorem hysteresis_of_fixed (rows cols fuel : Nat) (map : List Nat)
    (h : hystStep rows cols map = map) : hysteresis rows cols fuel map = map := by
  induction fuel with
  | zero => rfl
  | succ n ih => rw [hysteresis, h, ih]

theorem hysteresis_fixed_aux (rows cols fuel : Nat) (map : List Nat)
    (hl : map.length = rows * cols) (hp : (pending (rows * cols) map).card ≤ fuel) :
    hystStep rows cols (hysteresis rows cols fuel map) = hysteresis rows cols fuel map := by
  induction fuel generalizing map with
  | zero =>
    by_contra hne
    have := pending_hystStep_lt rows cols map hl hne
    omega
  | succ n ih =>
    rw [hysteresis]
    by_cases hfix : hystStep rows cols map = map
    · rw [hfix, hysteresis_of_fixed rows cols n map hfix, hfix]
    · apply ih _ (hystStep_length rows cols map)
      have := pending_hystStep_lt rows cols map hl hfix
      omega

/-- The `rows * cols` rounds of edge tracking in `Canny` suffice: the class
map they produce is closed under a further round, so every pixel connected to
a strong edge pixel through pixels that may belong to an edge has been
reached. -/
theorem hysteresis_fixed (g : Mat) (low high : Nat) :
    hystStep g.rows g.cols
        (hysteresis g.rows g.cols (g.rows * g.cols) (nmsMap g low high)) =
      hysteresis g.rows g.cols (g.rows * g.cols) (nmsMap g low high) := by
  apply hysteresis_fixed_aux _ _ _ _ (nmsMap_length g low high)
  calc (pending (g.rows * g.cols) (nmsMap g low high)).card
      ≤ (Finset.range (g.rows * g.cols)).card := Finset.card_filter_le _ _
    _ = g.rows * g.cols := Finset.card_range _

/-! ## No path of the call reports `InvalidArgument` -/

theorem rgbaBytesToMat_error {data : List Byte} {width height : Int} {e : Failure}
    (h : rgbaBytesToMat data width height = .error e) :
    e = .CvException ∨ e = .OutOfBoundsRead := by
  unfold rgbaBytesToMat UserMat.clone at h
  simp only at h
  split_ifs at h <;> simp_all

theorem cvtColor_error {src : Mat} {e : Failure} (h : cvtColor src = .error e) :
    e = .CvException := by
  unfold cvtColor at h
  split_ifs at h <;> simp_all

theorem Canny_error {image : Mat} {t1 t2 : Nat} {e : Failure}
    (h : Canny image t1 t2 = .error e) : e = .CvException := by
  unfold Canny at h
  split_ifs at h
  simp_all

theorem edgesOf_error {buf : List Byte} {width height : Int} {e : Failure}
    (h : edgesOf buf width height = .error e) :
    e = .CvException ∨ e = .OutOfBoundsRead := by
  unfold edgesOf at h
  simp only [bind, Except.bind] at h
  cases h1 : rgbaBytesToMat buf width height with
  | error e1 =>
    rw [h1] at h
    simp only [Except.error.injEq] at h
    subst h
    exact rgbaBytesToMat_error h1
  | ok rgba =>
    rw [h1] at h
    simp only at h
    cases h2 : cvtColor rgba with
    | error e2 =>
      rw [h2] at h
      simp only [Except.error.injEq] at h
      subst h
      exact Or.inl (cvtColor_error h2)
    | ok gray =>
      rw [h2] at h
      exact Or.inl (Canny_error h)

/-- The source has no validation and no path that reports the error kind
`InvalidArgument` of the specification: whatever the heap, the reference and
the dimensions, the call does not end in it. -/
theorem processFrame_never_invalidArgument (env : JNIEnv) (a : jbyteArray)
    (width height : Int) :
    processFrame env a width height ≠ .error .InvalidArgument := by
  intro hc
  cases hlk : env.lookup a with
  | none =>
    unfold processFrame GetByteArrayElements at hc
    simp [hlk, bind, Except.bind] at hc
  | some arr =>
    rw [processFrame_eq hlk] at hc
    cases he : edgesOf (nativeView env a arr) width height with
    | error e =>
      rw [he] at hc
      simp only [Except.bind, Except.error.injEq] at hc
      subst hc
      rcases edgesOf_error he with h | h <;> cases h
    | ok edges =>
      rw [he] at hc
      simp only [Except.bind] at hc
      have hrg := wrapInt32_range (width * height)
      by_cases h0 : 0 ≤ wrapInt32 (width * height)
      · by_cases h2 : (wrapInt32 (width * height)).toNat ≤ edges.data.length
        · obtain ⟨o, _, hm⟩ := marshalOut_ok hlk edges _ h0 hrg.2 h2
          rw [hm] at hc
          cases hc
        · rw [marshalOut_short env a _ edges _ h0 hrg.2 h2] at hc
          cases hc
      · rw [marshalOut_negative env a _ edges _ (by omega)] at hc
        cases hc

/-! ## Uniform images -/

theorem uniformBuffer_succ (n : Nat) (r g b al : Byte) :
    uniformBuffer (n + 1) r g b al = r :: g :: b :: al :: uniformBuffer n r g b al := by
  simp [uniformBuffer, List.replicate_succ]

theorem uniformBuffer_length (n : Nat) (r g b al : Byte) :
    (uniformBuffer n r g b al).length = n * 4 := by
  induction n with
  | zero => rfl
  | succ k ih => rw [uniformBuffer_succ]; simp only [List.length_cons, ih]; omega

theorem grayAt_uniformBuffer (n : Nat) (r g b al : Byte) (i : Nat) (hi : i < n) :
    grayAt 4 (uniformBuffer n r g b al) i = rgbToGray r g b := by
  induction n generalizing i with
  | zero => omega
  | succ k ih =>
    rw [uniformBuffer_succ]
    cases i with
    | zero => rfl
    | succ j =>
      have hj := ih j (by omega)
      unfold grayAt at hj ⊢
      have e0 : 4 * (j + 1) = 4 * j + 1 + 1 + 1 + 1 := by ring
      have e1 : 4 * (j + 1) + 1 = 4 * j + 1 + 1 + 1 + 1 + 1 := by ring
      have e2 : 4 * (j + 1) + 2 = 4 * j + 2 + 1 + 1 + 1 + 1 := by ring
      rw [e1, e2, e0]
      simpa only [List.getD_cons_succ] using hj

theorem clampIdx_lt (i : Int) {n : Nat} (hn : 0 < n) : clampIdx i n < n := by
  unfold clampIdx
  split
  · exact hn
  · split <;> omega

theorem index_lt {rows cols a b : Nat} (ha : a < rows) (hb : b < cols) :
    a * cols + b < rows * cols := by
  calc a * cols + b < a * cols + cols := by omega
    _ = (a + 1) * cols := by ring
    _ ≤ rows * cols := Nat.mul_le_mul_right cols ha

/-- Every pixel of a constant image, also one read past the border, has the
constant value. -/
theorem pix_const {rows cols channels : Nat} {data : List Byte} {v : Byte}
    (hr : 0 < rows) (hc : 0 < cols)
    (hd : ∀ i, i < rows * cols → data.getD i 0 = v) (r c : Int) :
    Mat.pix ⟨rows, cols, channels, data⟩ r c = (v.val : Int) := by
  unfold Mat.pix
  rw [hd _ (index_lt (clampIdx_lt r hr) (clampIdx_lt c hc))]

theorem gradMag_const {rows cols channels : Nat} {data : List Byte} {v : Byte}
    (hr : 0 < rows) (hc : 0 < cols)
    (hd : ∀ i, i < rows * cols → data.getD i 0 = v) (r c : Int) :
    gradMag ⟨rows, cols, channels, data⟩ r c = 0 := by
  unfold gradMag sobelDx sobelDy
  simp only [pix_const hr hc hd]
  simp

theorem nmsClass_const {rows cols channels : Nat} {data : List Byte} {v : Byte}
    (hr : 0 < rows) (hc : 0 < cols)
    (hd : ∀ i, i < rows * cols → data.getD i 0 = v) (low high : Nat) (r c : Int) :
    nmsClass ⟨rows, cols, channels, data⟩ low high r c = 1 := by
  unfold nmsClass
  simp only [gradMag_const hr hc hd, Nat.not_lt_zero, if_false]

theorem getD_all_one {l : List Nat} (h : ∀ x ∈ l, x = 1) (i : Nat) : l.getD i 1 = 1 := by
  rw [List.getD_eq_getElem?_getD]
  cases hi : l[i]? with
  | none => rfl
  | some x => exact h x (List.getElem?_mem hi)

theorem hystStep_all_one (rows cols : Nat) {map : List Nat} (h : ∀ x ∈ map, x = 1) :
    ∀ x ∈ hystStep rows cols map, x = 1 := by
  intro x hx
  unfold hystStep at hx
  rw [List.mem_map] at hx
  obtain ⟨i, _, hi⟩ := hx
  simp only [getD_all_one h] at hi
  simpa using hi.symm

theorem hysteresis_all_one (rows cols fuel : Nat) {map : List Nat} (h : ∀ x ∈ map, x = 1) :
    ∀ x ∈ hysteresis rows cols fuel map, x = 1 := by
  induction fuel generalizing map with
  | zero => exact h
  | succ n ih => exact ih (hystStep_all_one rows cols h)

/-- A constant grayscale image has no edge pixel. -/
theorem edgeData_const {rows cols : Nat} {data : List Byte} {v : Byte}
    (hr : 0 < rows) (hc : 0 < cols)
    (hd : ∀ i, i < rows * cols → data.getD i 0 = v) :
    edgeData ⟨rows, cols, 1, data⟩ = List.replicate (rows * cols) 0 := by
  rw [List.eq_replicate_iff]
  refine ⟨edgeData_length _, ?_⟩
  intro b hb
  unfold edgeData at hb
  rw [List.mem_map] at hb
  obtain ⟨x, hx, hxb⟩ := hb
  have h1 : ∀ y ∈ nmsMap ⟨rows, cols, 1, data⟩ 80 180, y = 1 := by
    intro y hy
    unfold nmsMap at hy
    rw [List.mem_map] at hy
    obtain ⟨i, _, hi⟩ := hy
    rw [← hi]
    exact nmsClass_const hr hc hd 80 180 _ _
  have := hysteresis_all_one rows cols (rows * cols) h1 x hx
  rw [← hxb, this]
  rfl

theorem grayOf_uniform_getD (n : Nat) (r g b al : Byte) (width height : Nat)
    (hn : n = height * width) (i : Nat) (hi : i < height * width) :
    (grayOf (uniformBuffer n r g b al) width height).data.getD i 0 = rgbToGray r g b := by
  subst hn
  unfold grayOf
  simp only
  rw [List.getD_eq_getElem?_getD, List.getElem?_map, List.getElem?_range hi]
  simp only [Option.map_some', Option.getD_some]
  exact grayAt_uniformBuffer _ r g b al i hi

/-! ## The claims -/

theorem outputBytes_some {r : Except Failure (jbyteArray × JNIEnv)} {bytes : List Byte}
    (h : outputBytes r = some bytes) :
    ∃ out env', r = .ok (out, env') ∧ (env'.lookup out).map JArray.elems = some bytes := by
  cases r with
  | error e => simp [outputBytes] at h
  | ok p => exact ⟨p.1, p.2, rfl, h⟩

theorem grayOf_take (buf : List Byte) (width height : Nat) :
    grayOf (buf.take (height * width * 4)) width height = grayOf buf width height := by
  unfold grayOf
  simp only [Mat.mk.injEq, true_and]
  apply List.map_congr_left
  intro i hi
  exact grayAt_take buf (height * width) i (List.mem_range.mp hi)

theorem grayOf_append (buf extra : List Byte) (width height : Nat)
    (h : height * width * 4 ≤ buf.length) :
    grayOf (buf ++ extra) width height = grayOf buf width height := by
  rw [← grayOf_take (buf ++ extra), List.take_append_of_le_length h, grayOf_take]

theorem toNat_len_le {width height : Int} {n : Nat} (hw : 0 < width) (hh : 0 < height)
    (hlen : width * height * 4 ≤ (n : Int)) : height.toNat * width.toNat * 4 ≤ n := by
  have hmul := toNat_mul_toNat hw hh
  have : ((height.toNat * width.toNat * 4 : Nat) : Int) ≤ (n : Int) := by
    push_cast at hmul ⊢
    rw [hmul]
    exact hlen
  exact_mod_cast this

/-- On positive dimensions and an array of at least `width * height * 4`
bytes the call returns the edge map of the grayscale grid of the array; the
memory behind the array is not read. -/
theorem output_valid {env : JNIEnv} {a : jbyteArray} {arr : JArray} {width height : Int}
    (ha : env.lookup a = some arr) (hw : 0 < width) (hh : 0 < height)
    (hlen : width * height * 4 ≤ (arr.elems.length : Int)) :
    outputBytes (processFrame env a width height) =
      some (edgeData (grayOf arr.elems width.toNat height.toNat)) := by
  have hv : arr.elems.length ≤ (nativeView env a arr).length := by
    simp [nativeView]
  rw [outputBytes_processFrame ha, outputOf_ok hw hh hlen hv arr.len_ok]
  unfold nativeView
  rw [grayOf_append _ _ _ _ (toNat_len_le hw hh hlen)]

theorem edge_length {buf : List Byte} {width height : Int} (hw : 0 < width) (hh : 0 < height) :
    ((edgeData (grayOf buf width.toNat height.toNat)).length : Int) = width * height := by
  rw [edgeData_length]
  exact toNat_mul_toNat hw hh

/-- C1 (as amended): `processFrame` does not compare the length of the buffer
with the dimensions.  For positive dimensions and a buffer longer than
`width * height * 4` bytes the call returns an array of `width * height`
bytes; it does not fail, with `InvalidArgument` or otherwise. -/
theorem processFrame_longer_buffer_accepted (env : JNIEnv) (a : jbyteArray) (arr : JArray)
    (width height : Int) (ha : env.lookup a = some arr) (hw : 0 < width) (hh : 0 < height)
    (hlen : width * height * 4 < (arr.elems.length : Int)) :
    processFrame env a width height ≠ .error .InvalidArgument ∧
    ∃ out env' bytes, processFrame env a width height = .ok (out, env') ∧
      (env'.lookup out).map JArray.elems = some bytes ∧
      (bytes.length : Int) = width * height := by
  obtain ⟨out, env', hr, hb⟩ := outputBytes_some (output_valid ha hw hh (le_of_lt hlen))
  refine ⟨?_, out, env', _, hr, hb, edge_length hw hh⟩
  rw [hr]
  exact fun h => by cases h

/-- C1, witness: a 20-byte buffer with `width = 2`, `height = 2`. -/
theorem processFrame_longer_buffer_accepted_witness :
    JNIEnv.lookup ⟨[stripes2x2Long], []⟩ 0 = some stripes2x2Long ∧ (0 : Int) < 2 ∧
    ((2 : Int) * 2 * 4 < (stripes2x2Long.elems.length : Int)) ∧
    (processFrame ⟨[stripes2x2Long], []⟩ 0 2 2 ≠ .error .InvalidArgument ∧
    ∃ out env' bytes, processFrame ⟨[stripes2x2Long], []⟩ 0 2 2 = .ok (out, env') ∧
      (env'.lookup out).map JArray.elems = some bytes ∧
      (bytes.length : Int) = 2 * 2) :=
  ⟨rfl, by decide, by decide,
    processFrame_longer_buffer_accepted ⟨[stripes2x2Long], []⟩ 0 stripes2x2Long 2 2 rfl
      (by decide) (by decide) (by decide)⟩

/-- C1, counterexample: with `width = 2`, `height = 2` and a buffer of 20
bytes instead of 16 the call does not fail with `InvalidArgument`; it returns
the four bytes `255, 0, 255, 0`. -/
theorem processFrame_length_mismatch_returns :
    stripes2x2Long.elems.length ≠ 2 * 2 * 4 ∧
    processFrame ⟨[stripes2x2Long], []⟩ 0 2 2 ≠ .error .InvalidArgument ∧
    processFrame ⟨[stripes2x2Long], []⟩ 0 2 2 =
      .ok (1, ⟨[stripes2x2Long, ⟨[255, 0, 255, 0], by decide⟩], []⟩) := by
  have h : processFrame ⟨[stripes2x2Long], []⟩ 0 2 2 =
      .ok (1, ⟨[stripes2x2Long, ⟨[255, 0, 255, 0], by decide⟩], []⟩) := rfl
  refine ⟨by decide, ?_, h⟩
  rw [h]
  exact fun e => by cases e

/-- C2 (as amended): `processFrame` checks no dimension itself and never
reports `InvalidArgument`.  With `width <= 0` or `height <= 0` the call
returns no array: it ends in the `cv::Exception` of a failed assertion of the
vision library. -/
theorem processFrame_nonpositive_dims (env : JNIEnv) (a : jbyteArray) (arr : JArray)
    (width height : Int) (ha : env.lookup a = some arr) (hd : width ≤ 0 ∨ height ≤ 0) :
    processFrame env a width height = .error .CvException := by
  rw [processFrame_eq ha]
  unfold edgesOf rgbaBytesToMat UserMat.clone
  by_cases h0 : height = 0 ∨ width = 0
  · simp only [h0, if_true, bind, Except.bind]
    rfl
  · have h1 : height < 0 ∨ width < 0 := by omega
    simp only [h0, if_false, h1, if_true, bind, Except.bind]

/-- C2, witness: `width = 0`, `height = 2`. -/
theorem processFrame_nonpositive_dims_witness :
    JNIEnv.lookup ⟨[stripes2x2], []⟩ 0 = some stripes2x2 ∧ ((0 : Int) ≤ 0 ∨ (2 : Int) ≤ 0) ∧
    processFrame ⟨[stripes2x2], []⟩ 0 0 2 = .error .CvException :=
  ⟨rfl, Or.inl (by decide),
    processFrame_nonpositive_dims ⟨[stripes2x2], []⟩ 0 stripes2x2 0 2 rfl (Or.inl (by decide))⟩

/-- C2, counterexample: with `width = 0` and `height = 0` the call does not
fail with `InvalidArgument`; it ends in an uncaught `cv::Exception`. -/
theorem processFrame_zero_dims_cvException :
    processFrame ⟨[stripes2x2], []⟩ 0 0 0 ≠ .error .InvalidArgument ∧
    processFrame ⟨[stripes2x2], []⟩ 0 0 0 = .error .CvException := by
  have h : processFrame ⟨[stripes2x2], []⟩ 0 0 0 = .error .CvException := rfl
  refine ⟨?_, h⟩
  rw [h]
  exact fun e => by cases e

/-- C3: for positive `width` and `height` and a buffer of exactly
`width * height * 4` bytes, `processFrame` succeeds and the array it returns
has exactly `width * height` bytes. -/
theorem processFrame_output_length (env : JNIEnv) (a : jbyteArray) (arr : JArray)
    (width height : Int) (ha : env.lookup a = some arr) (hw : 0 < width) (hh : 0 < height)
    (hlen : (arr.elems.length : Int) = width * height * 4) :
    ∃ out env' bytes, processFrame env a width height = .ok (out, env') ∧
      (env'.lookup out).map JArray.elems = some bytes ∧
      (bytes.length : Int) = width * height := by
  obtain ⟨out, env', hr, hb⟩ := outputBytes_some (output_valid ha hw hh (le_of_eq hlen.symm))
  exact ⟨out, env', _, hr, hb, edge_length hw hh⟩

/-- C3, witness: the 2x2 frame `stripes2x2`. -/
theorem processFrame_output_length_witness :
    JNIEnv.lookup ⟨[stripes2x2], []⟩ 0 = some stripes2x2 ∧ (0 : Int) < 2 ∧
    ((stripes2x2.elems.length : Int) = 2 * 2 * 4) ∧
    ∃ out env' bytes, processFrame ⟨[stripes2x2], []⟩ 0 2 2 = .ok (out, env') ∧
      (env'.lookup out).map JArray.elems = some bytes ∧
      (bytes.length : Int) = 2 * 2 :=
  ⟨rfl, by decide, by decide,
    processFrame_output_length ⟨[stripes2x2], []⟩ 0 stripes2x2 2 2 rfl (by decide) (by decide)
      (by decide)⟩

theorem edgeData_binary (g : Mat) : ∀ b ∈ edgeData g, b = 0 ∨ b = 255 := by
  intro b hb
  unfold edgeData at hb
  rw [List.mem_map] at hb
  obtain ⟨x, _, hx⟩ := hb
  rw [← hx]
  unfold edgeByte
  split
  · exact Or.inr rfl
  · exact Or.inl rfl

/-- C4: for positive `width` and `height` and a buffer of exactly
`width * height * 4` bytes, every byte of the array `processFrame` returns is
`0` or `255`. -/
theorem processFrame_output_binary (env : JNIEnv) (a : jbyteArray) (arr : JArray)
    (width height : Int) (ha : env.lookup a = some arr) (hw : 0 < width) (hh : 0 < height)
    (hlen : (arr.elems.length : Int) = width * height * 4) :
    ∃ bytes, outputBytes (processFrame env a width height) = some bytes ∧
      ∀ b ∈ bytes, b = 0 ∨ b = 255 :=
  ⟨_, output_valid ha hw hh (le_of_eq hlen.symm), edgeData_binary _⟩

/-- C4, witness: the 2x2 frame `stripes2x2`. -/
theorem processFrame_output_binary_witness :
    JNIEnv.lookup ⟨[stripes2x2], []⟩ 0 = some stripes2x2 ∧ (0 : Int) < 2 ∧
    ((stripes2x2.elems.length : Int) = 2 * 2 * 4) ∧
    ∃ bytes, outputBytes (processFrame ⟨[stripes2x2], []⟩ 0 2 2) = some bytes ∧
      ∀ b ∈ bytes, b = 0 ∨ b = 255 :=
  ⟨rfl, by decide, by decide,
    processFrame_output_binary ⟨[stripes2x2], []⟩ 0 stripes2x2 2 2 rfl (by decide) (by decide)
      (by decide)⟩

/-- C5: for positive `width` and `height` and a buffer of exactly
`width * height * 4` bytes, `processFrame` returns, and after the call, the
release of the acquired elements with mode `0` included, the input array
holds the bytes it held before; so does every other array of the heap, and
the returned array is a new one. -/
theorem processFrame_input_unmodified (env : JNIEnv) (a : jbyteArray) (arr : JArray)
    (width height : Int) (ha : env.lookup a = some arr) (hw : 0 < width) (hh : 0 < height)
    (hlen : (arr.elems.length : Int) = width * height * 4) :
    ∃ out env', processFrame env a width height = .ok (out, env') ∧
      env'.lookup a = some arr ∧ out ≠ a ∧
      ∀ b x, env.lookup b = some x → env'.lookup b = some x := by
  obtain ⟨out, env', hr, _⟩ := outputBytes_some (output_valid ha hw hh (le_of_eq hlen.symm))
  obtain ⟨ho, o, he⟩ := processFrame_heap ha hr
  have hkeep : ∀ b x, env.lookup b = some x → env'.lookup b = some x := by
    intro b x hb
    have := lookup_append_left hb o
    unfold JNIEnv.lookup at this ⊢
    rw [he]
    exact this
  refine ⟨out, env', hr, hkeep a arr ha, ?_, hkeep⟩
  rw [ho]
  exact Nat.ne_of_gt (lookup_lt ha)

/-- C5, witness: the 2x2 frame `stripes2x2`. -/
theorem processFrame_input_unmodified_witness :
    JNIEnv.lookup ⟨[stripes2x2], []⟩ 0 = some stripes2x2 ∧ (0 : Int) < 2 ∧
    ((stripes2x2.elems.length : Int) = 2 * 2 * 4) ∧
    ∃ out env', processFrame ⟨[stripes2x2], []⟩ 0 2 2 = .ok (out, env') ∧
      env'.lookup 0 = some stripes2x2 ∧ out ≠ 0 ∧
      ∀ b x, JNIEnv.lookup ⟨[stripes2x2], []⟩ b = some x → env'.lookup b = some x :=
  ⟨rfl, by decide, by decide,
    processFrame_input_unmodified ⟨[stripes2x2], []⟩ 0 stripes2x2 2 2 rfl (by decide) (by decide)
      (by decide)⟩

/-- C7: a uniform image has no edges.  For positive `width` and `height` and
the buffer of `width * height` equal RGBA pixels, `processFrame` returns
`width * height` zero bytes. -/
theorem processFrame_uniform_no_edges (env : JNIEnv) (a : jbyteArray) (arr : JArray)
    (width height : Int) (r g b al : Byte)
    (ha : env.lookup a = some arr) (hw : 0 < width) (hh : 0 < height)
    (hu : arr.elems = uniformBuffer (width * height).toNat r g b al) :
    outputBytes (processFrame env a width height) =
      some (List.replicate (width * height).toNat 0) := by
  have hmul := toNat_mul_toNat hw hh
  have hn : (width * height).toNat = height.toNat * width.toNat := by
    rw [← hmul]
    exact Int.toNat_ofNat _
  have hlen : width * height * 4 ≤ (arr.elems.length : Int) := by
    rw [hu, uniformBuffer_length, hn]
    push_cast at hmul ⊢
    rw [hmul]
  rw [output_valid ha hw hh hlen, hu, hn]
  have hW : 0 < width.toNat := by omega
  have hH : 0 < height.toNat := by omega
  have hg := grayOf_uniform_getD (height.toNat * width.toNat) r g b al
    width.toNat height.toNat rfl
  unfold grayOf at hg ⊢
  rw [edgeData_const hH hW hg]

/-- C7, witness: the all-black 4x4 frame gives 16 zero bytes. -/
theorem processFrame_uniform_no_edges_witness :
    JNIEnv.lookup ⟨[black4x4], []⟩ 0 = some black4x4 ∧ (0 : Int) < 4 ∧
    black4x4.elems = uniformBuffer ((4 : Int) * 4).toNat 0 0 0 255 ∧
    outputBytes (processFrame ⟨[black4x4], []⟩ 0 4 4) =
      some (List.replicate ((4 : Int) * 4).toNat 0) :=
  ⟨rfl, by decide, rfl,
    processFrame_uniform_no_edges ⟨[black4x4], []⟩ 0 black4x4 4 4 0 0 0 255 rfl (by decide)
      (by decide) rfl⟩

/-- C8: for every 4-byte buffer, `processFrame` with `width = 1` and
`height = 1` succeeds and returns an array of exactly one byte. -/
theorem processFrame_single_pixel (env : JNIEnv) (a : jbyteArray) (arr : JArray)
    (ha : env.lookup a = some arr) (hlen : arr.elems.length = 4) :
    ∃ out env' b, processFrame env a 1 1 = .ok (out, env') ∧
      (env'.lookup out).map JArray.elems = some [b] := by
  have hl : (1 : Int) * 1 * 4 ≤ (arr.elems.length : Int) := by omega
  obtain ⟨out, env', hr, hb⟩ :=
    outputBytes_some (output_valid ha (by decide) (by decide) hl)
  have hlen1 : (edgeData (grayOf arr.elems (1 : Int).toNat (1 : Int).toNat)).length = 1 := by
    rw [edgeData_length]
    rfl
  obtain ⟨b, hb1⟩ := List.length_eq_one.mp hlen1
  exact ⟨out, env', b, hr, by rw [hb, hb1]⟩

/-- C8, witness: the single pixel `(10, 200, 30, 255)`. -/
theorem processFrame_single_pixel_witness :
    JNIEnv.lookup ⟨[pixel1x1], []⟩ 0 = some pixel1x1 ∧ pixel1x1.elems.length = 4 ∧
    ∃ out env' b, processFrame ⟨[pixel1x1], []⟩ 0 1 1 = .ok (out, env') ∧
      (env'.lookup out).map JArray.elems = some [b] :=
  ⟨rfl, rfl, processFrame_single_pixel ⟨[pixel1x1], []⟩ 0 pixel1x1 rfl rfl⟩

/-- C9: `processFrame` is the fixed pipeline.  For positive `width` and
`height` and a buffer of exactly `width * height * 4` bytes, let the RGBA
grid be the `height x width` four-channel matrix over the buffer, whose pixel
`(r, c)` is the bytes `4 * (r * width + c) .. 4 * (r * width + c) + 3`.  Then
`cvtColor` of the grid succeeds with a grayscale grid, `Canny` of that grid
with the thresholds `80` and `180` succeeds with an edge matrix, and the
returned array has `width * height` bytes, the byte at `r * width + c` being
pixel `(r, c)` of the edge matrix. -/
theorem processFrame_pipeline (env : JNIEnv) (a : jbyteArray) (arr : JArray)
    (width height : Int) (ha : env.lookup a = some arr) (hw : 0 < width) (hh : 0 < height)
    (hlen : (arr.elems.length : Int) = width * height * 4) :
    ∃ gray edges bytes,
      cvtColor ⟨height.toNat, width.toNat, 4, arr.elems⟩ = .ok gray ∧
      Canny gray 80 180 = .ok edges ∧
      outputBytes (processFrame env a width height) = some bytes ∧
      bytes.length = height.toNat * width.toNat ∧
      (∀ r c k, Mat.at ⟨height.toNat, width.toNat, 4, arr.elems⟩ r c k =
        arr.elems.getD (4 * (r * width.toNat + c) + k) 0) ∧
      ∀ r c, r < height.toNat → c < width.toNat →
        bytes.getD (r * width.toNat + c) 0 = edges.at r c 0 := by
  have hW : 0 < width.toNat := by omega
  have hH : 0 < height.toNat := by omega
  have hmul := toNat_mul_toNat hw hh
  have hl : arr.elems.length = height.toNat * width.toNat * 4 := by
    have : (arr.elems.length : Int) = ((height.toNat * width.toNat * 4 : Nat) : Int) := by
      push_cast at hmul ⊢
      rw [hmul]
      exact hlen
    exact_mod_cast this
  have hcvt : cvtColor ⟨height.toNat, width.toNat, 4, arr.elems⟩ =
      .ok (grayOf arr.elems width.toNat height.toNat) := by
    have := cvtColor_rgba arr.elems hH hW
    rwa [List.take_of_length_le (le_of_eq hl)] at this
  refine ⟨grayOf arr.elems width.toNat height.toNat,
    ⟨height.toNat, width.toNat, 1, edgeData (grayOf arr.elems width.toNat height.toNat)⟩,
    edgeData (grayOf arr.elems width.toNat height.toNat), hcvt, ?_,
    output_valid ha hw hh (le_of_eq hlen.symm), ?_, ?_, ?_⟩
  · exact Canny_gray hH hW
  · rw [edgeData_length]
    rfl
  · intro r c k
    unfold Mat.at
    congr 1
    ring
  · intro r c _ _
    unfold Mat.at
    congr 1
    ring

/-- C9, witness: the 2x2 frame `stripes2x2`. -/
theorem processFrame_pipeline_witness :
    JNIEnv.lookup ⟨[stripes2x2], []⟩ 0 = some stripes2x2 ∧ (0 : Int) < 2 ∧
    ((stripes2x2.elems.length : Int) = 2 * 2 * 4) ∧
    ∃ gray edges bytes,
      cvtColor ⟨(2 : Int).toNat, (2 : Int).toNat, 4, stripes2x2.elems⟩ = .ok gray ∧
      Canny gray 80 180 = .ok edges ∧
      outputBytes (processFrame ⟨[stripes2x2], []⟩ 0 2 2) = some bytes ∧
      bytes.length = (2 : Int).toNat * (2 : Int).toNat ∧
      (∀ r c k, Mat.at ⟨(2 : Int).toNat, (2 : Int).toNat, 4, stripes2x2.elems⟩ r c k =
        stripes2x2.elems.getD (4 * (r * (2 : Int).toNat + c) + k) 0) ∧
      ∀ r c, r < (2 : Int).toNat → c < (2 : Int).toNat →
        bytes.getD (r * (2 : Int).toNat + c) 0 = edges.at r c 0 :=
  ⟨rfl, by decide, by decide,
    processFrame_pipeline ⟨[stripes2x2], []⟩ 0 stripes2x2 2 2 rfl (by decide) (by decide)
      (by decide)⟩

/-- C10: the length of the input array does not influence the result.  For
positive `width` and `height` and two buffers of at least
`width * height * 4` bytes that agree on their first `width * height * 4`
bytes, `processFrame` returns the same `width * height` bytes for both, and
signals no error for a buffer that is longer. -/
theorem processFrame_ignores_extra_bytes (env env' : JNIEnv) (a a' : jbyteArray)
    (arr arr' : JArray) (width height : Int)
    (ha : env.lookup a = some arr) (ha' : env'.lookup a' = some arr')
    (hw : 0 < width) (hh : 0 < height)
    (hlen : width * height * 4 ≤ (arr.elems.length : Int))
    (hlen' : width * height * 4 ≤ (arr'.elems.length : Int))
    (hagree : arr.elems.take (width * height * 4).toNat =
      arr'.elems.take (width * height * 4).toNat) :
    ∃ bytes, (bytes.length : Int) = width * height ∧
      outputBytes (processFrame env a width height) = some bytes ∧
      outputBytes (processFrame env' a' width height) = some bytes := by
  have hmul := toNat_mul_toNat hw hh
  have hn : (width * height * 4).toNat = height.toNat * width.toNat * 4 := by
    have : width * height * 4 = ((height.toNat * width.toNat * 4 : Nat) : Int) := by
      push_cast at hmul ⊢
      rw [hmul]
    rw [this]
    exact Int.toNat_ofNat _
  rw [hn] at hagree
  refine ⟨edgeData (grayOf arr.elems width.toNat height.toNat), edge_length hw hh,
    output_valid ha hw hh hlen, ?_⟩
  rw [output_valid ha' hw hh hlen', ← grayOf_take arr.elems, hagree, grayOf_take]

/-- C10, witness: the 16-byte frame `stripes2x2` and the 20-byte buffer
`stripes2x2Long`, with `width = 2` and `height = 2`. -/
theorem processFrame_ignores_extra_bytes_witness :
    JNIEnv.lookup ⟨[stripes2x2], []⟩ 0 = some stripes2x2 ∧
    JNIEnv.lookup ⟨[stripes2x2Long], []⟩ 0 = some stripes2x2Long ∧ (0 : Int) < 2 ∧
    ((2 : Int) * 2 * 4 ≤ (stripes2x2.elems.length : Int)) ∧
    ((2 : Int) * 2 * 4 ≤ (stripes2x2Long.elems.length : Int)) ∧
    stripes2x2.elems.take ((2 : Int) * 2 * 4).toNat =
      stripes2x2Long.elems.take ((2 : Int) * 2 * 4).toNat ∧
    ∃ bytes, (bytes.length : Int) = 2 * 2 ∧
      outputBytes (processFrame ⟨[stripes2x2], []⟩ 0 2 2) = some bytes ∧
      outputBytes (processFrame ⟨[stripes2x2Long], []⟩ 0 2 2) = some bytes :=
  ⟨rfl, rfl, by decide, by decide, by decide, by decide,
    processFrame_ignores_extra_bytes ⟨[stripes2x2], []⟩ ⟨[stripes2x2Long], []⟩ 0 0 stripes2x2
      stripes2x2Long 2 2 rfl rfl (by decide) (by decide) (by decide) (by decide)
      (by decide)⟩

end EdgeViewer
